import Mathlib

/-!
Verification of the give-ideas-bot core (src/src/main.py): the tokenizer
(`str_to_command` / `command_to_str`), the bounded-cache access pattern
(`pformat_cached`), the destructive leading-token extractor (`get_nth_word`),
the message chunker (`_send_message`), the dispatcher (`on_message`) and the
note-store `set` command (`cmd_set`).

Strings are modelled as `List Char`.  Python's `str.strip()` is modelled over
the full Unicode whitespace set it removes; the tokenizer's cache layers
(main.py lines 97-104 and 109-117) are value-transparent memoisation (on a hit
the cached `json`/`repr` round-trips the very value that was stored), so the
tokenizer functions are embedded as the pure computation of their miss branch,
and the cache dynamics themselves are embedded separately as `pformat_cached`.
-/

/-- The whitespace characters removed by Python's `str.strip()`: exactly the
code points for which CPython's `str.isspace()` holds — U+0009 to U+000D,
U+001C to U+001F, U+0020, U+0085 (NEL), U+00A0 (NBSP), U+1680 (Ogham space),
U+2000 to U+200A, U+2028, U+2029, U+202F, U+205F and U+3000. -/
def isPySpace (c : Char) : Bool :=
  (0x09 ≤ c.toNat && c.toNat ≤ 0x0d) ||
  (0x1c ≤ c.toNat && c.toNat ≤ 0x1f) ||
  c.toNat = 0x20 || c.toNat = 0x85 || c.toNat = 0xa0 || c.toNat = 0x1680 ||
  (0x2000 ≤ c.toNat && c.toNat ≤ 0x200a) ||
  c.toNat = 0x2028 || c.toNat = 0x2029 || c.toNat = 0x202f ||
  c.toNat = 0x205f || c.toNat = 0x3000

/-- Remove leading whitespace (the left half of Python `str.strip()`). -/
def lstrip (s : List Char) : List Char :=
  s.dropWhile isPySpace

/-- Remove trailing whitespace (the right half of Python `str.strip()`). -/
def rstrip : List Char → List Char
  | [] => []
  | c :: cs =>
    match rstrip cs with
    | [] => if isPySpace c then [] else [c]
    | r => c :: r

/-- Python `str.strip()`: remove leading and trailing whitespace. -/
def pyStrip (s : List Char) : List Char :=
  lstrip (rstrip s)

/-- Python `str.split(sep)` for a single-character separator: splits on every
occurrence of `sep`, keeping empty parts, and always returns at least one
part. -/
def splitOnChar (sep : Char) : List Char → List (List Char)
  | [] => [[]]
  | c :: cs =>
    match splitOnChar sep cs with
    | [] => [[c]]
    | p :: ps => if c = sep then [] :: p :: ps else (c :: p) :: ps

/-- Python `sep.join(parts)` for a single-character separator. -/
def joinWith (sep : Char) : List (List Char) → List Char
  | [] => []
  | [x] => x
  | x :: y :: xs => x ++ sep :: joinWith sep (y :: xs)

/-- `str_to_command` (main.py lines 108-118, the computation of line 114):
`[line.split(" ") for line in command.strip().split("\n")]`. -/
def str_to_command (command : List Char) : List (List (List Char)) :=
  (splitOnChar '\n' (pyStrip command)).map (splitOnChar ' ')

/-- `command_to_str` (main.py lines 94-105, the computation of line 102):
`"".join(f"{' '.join(line)}\n" for line in command).strip()`. -/
def command_to_str (command : List (List (List Char))) : List Char :=
  pyStrip ((command.map (fun line => joinWith ' ' line ++ ['\n'])).flatten)

theorem splitOnChar_ne_nil (sep : Char) (s : List Char) : splitOnChar sep s ≠ [] := by
  cases s with
  | nil => simp [splitOnChar]
  | cons c cs =>
    simp only [splitOnChar]
    cases h : splitOnChar sep cs with
    | nil => simp
    | cons p ps =>
      by_cases hc : c = sep <;> simp [hc]

theorem splitOnChar_cons_eq (sep c : Char) (cs p : List Char) (ps : List (List Char))
    (h : splitOnChar sep cs = p :: ps) :
    splitOnChar sep (c :: cs) =
      if c = sep then [] :: p :: ps else (c :: p) :: ps := by
  simp [splitOnChar, h]

/-- Joining what was split reconstructs the original string (Python
`sep.join(s.split(sep)) == s`). -/
theorem joinWith_splitOnChar (sep : Char) (s : List Char) :
    joinWith sep (splitOnChar sep s) = s := by
  induction s with
  | nil => simp [splitOnChar, joinWith]
  | cons c cs ih =>
    cases h : splitOnChar sep cs with
    | nil => exact absurd h (splitOnChar_ne_nil sep cs)
    | cons p ps =>
      rw [h] at ih
      rw [splitOnChar_cons_eq sep c cs p ps h]
      by_cases hc : c = sep
      · subst hc
        simp only [if_pos rfl]
        cases ps with
        | nil => simpa [joinWith] using ih
        | cons q qs => simpa [joinWith] using ih
      · simp only [if_neg hc]
        cases ps with
        | nil =>
          simp only [joinWith] at ih ⊢
          rw [ih]
        | cons q qs =>
          simp only [joinWith] at ih ⊢
          rw [List.cons_append, ih]

/-- A string that does not contain the separator splits into itself alone. -/
theorem splitOnChar_eq_self (sep : Char) (s : List Char) (h : sep ∉ s) :
    splitOnChar sep s = [s] := by
  induction s with
  | nil => simp [splitOnChar]
  | cons c cs ih =>
    simp only [List.mem_cons, not_or] at h
    rw [splitOnChar_cons_eq sep c cs cs [] (ih h.2)]
    rw [if_neg (fun hc => h.1 hc.symm)]

/-- Splitting distributes over an explicit separator occurrence. -/
theorem splitOnChar_append_sep (sep : Char) (x t : List Char) (hx : sep ∉ x) :
    splitOnChar sep (x ++ sep :: t) = x :: splitOnChar sep t := by
  induction x with
  | nil =>
    simp only [List.nil_append, splitOnChar]
    cases h : splitOnChar sep t with
    | nil => exact absurd h (splitOnChar_ne_nil sep t)
    | cons p ps => simp
  | cons c cs ih =>
    simp only [List.mem_cons, not_or] at hx
    have ih' := ih hx.2
    cases h : splitOnChar sep t with
    | nil => exact absurd h (splitOnChar_ne_nil sep t)
    | cons q qs =>
      rw [h] at ih'
      rw [List.cons_append, splitOnChar_cons_eq sep c (cs ++ sep :: t) cs (q :: qs) ih']
      rw [if_neg (fun hc => hx.1 hc.symm)]

/-- Splitting what was joined recovers the parts, provided there is at least
one part and no part contains the separator (Python
`sep.join(parts).split(sep) == parts`). -/
theorem splitOnChar_joinWith (sep : Char) (parts : List (List Char))
    (hne : parts ≠ []) (hsep : ∀ p ∈ parts, sep ∉ p) :
    splitOnChar sep (joinWith sep parts) = parts := by
  induction parts with
  | nil => exact absurd rfl hne
  | cons x xs ih =>
    cases xs with
    | nil =>
      simp only [joinWith]
      exact splitOnChar_eq_self sep x (hsep x (List.mem_cons_self x []))
    | cons y ys =>
      simp only [joinWith]
      rw [splitOnChar_append_sep sep x _ (hsep x (List.mem_cons_self x _))]
      congr 1
      exact ih (by simp) (fun p hp => hsep p (List.mem_cons_of_mem x hp))

theorem rstrip_cons_nil (c : Char) (cs : List Char) (h : rstrip cs = []) :
    rstrip (c :: cs) = if isPySpace c then [] else [c] := by
  simp [rstrip, h]

theorem rstrip_cons_cons (c : Char) (cs : List Char) (x : Char) (xs : List Char)
    (h : rstrip cs = x :: xs) : rstrip (c :: cs) = c :: x :: xs := by
  simp [rstrip, h]

/-- Appending a trailing whitespace character does not change `rstrip`. -/
theorem rstrip_append_space (c : Char) (hc : isPySpace c = true) (s : List Char) :
    rstrip (s ++ [c]) = rstrip s := by
  induction s with
  | nil => simp [rstrip, hc]
  | cons a s ih =>
    cases hs : rstrip s with
    | nil =>
      rw [List.cons_append, rstrip_cons_nil a (s ++ [c]) (ih.trans hs),
        rstrip_cons_nil a s hs]
    | cons x xs =>
      rw [List.cons_append, rstrip_cons_cons a (s ++ [c]) x xs (ih.trans hs),
        rstrip_cons_cons a s x xs hs]

/-- The last character surviving `rstrip` is never whitespace. -/
theorem rstrip_getLast_not_space (s : List Char) (c : Char)
    (h : (rstrip s).getLast? = some c) : isPySpace c = false := by
  induction s with
  | nil => simp [rstrip] at h
  | cons a s ih =>
    cases hs : rstrip s with
    | nil =>
      rw [rstrip_cons_nil a s hs] at h
      by_cases hws : isPySpace a
      · rw [if_pos hws] at h
        simp at h
      · rw [if_neg hws] at h
        simp only [List.getLast?_singleton, Option.some.injEq] at h
        subst h
        simpa using hws
    | cons x xs =>
      rw [rstrip_cons_cons a s x xs hs] at h
      rw [List.getLast?_cons_cons] at h
      exact ih (hs ▸ h)

/-- A string whose last character is not whitespace is unchanged by `rstrip`. -/
theorem rstrip_eq_self (s : List Char)
    (h : ∀ c, s.getLast? = some c → isPySpace c = false) : rstrip s = s := by
  induction s with
  | nil => rfl
  | cons a s ih =>
    cases s with
    | nil =>
      have ha := h a (by simp)
      rw [rstrip_cons_nil a [] rfl, if_neg (by simp [ha])]
    | cons b t =>
      have hs : rstrip (b :: t) = b :: t :=
        ih (fun c hc => h c (by rw [List.getLast?_cons_cons]; exact hc))
      rw [rstrip_cons_cons a (b :: t) b t hs]

theorem lstrip_cons (a : Char) (s : List Char) :
    lstrip (a :: s) = if isPySpace a then lstrip s else a :: s := by
  simp [lstrip, List.dropWhile_cons]

theorem lstrip_lstrip (s : List Char) : lstrip (lstrip s) = lstrip s := by
  induction s with
  | nil => rfl
  | cons a s ih =>
    by_cases hws : isPySpace a
    · rw [lstrip_cons, if_pos hws, ih]
    · rw [lstrip_cons, if_neg hws, lstrip_cons, if_neg hws]

/-- `lstrip` leaves the last character alone (or empties the string). -/
theorem lstrip_getLast? (s : List Char) :
    lstrip s = [] ∨ (lstrip s).getLast? = s.getLast? := by
  induction s with
  | nil => left; rfl
  | cons a s ih =>
    by_cases hws : isPySpace a
    · rw [lstrip_cons, if_pos hws]
      cases s with
      | nil => left; rfl
      | cons b t =>
        rcases ih with h | h
        · left; exact h
        · right; rw [h, List.getLast?_cons_cons]
    · right; rw [lstrip_cons, if_neg hws]

/-- A string whose first character is not whitespace is unchanged by
`lstrip`. -/
theorem lstrip_eq_self (s : List Char)
    (h : ∀ c, s.head? = some c → isPySpace c = false) : lstrip s = s := by
  cases s with
  | nil => rfl
  | cons a s => rw [lstrip_cons, if_neg (by simp [h a rfl])]

/-- Appending a trailing whitespace character does not change `pyStrip`. -/
theorem pyStrip_append_space (s : List Char) (c : Char) (hc : isPySpace c = true) :
    pyStrip (s ++ [c]) = pyStrip s := by
  show lstrip (rstrip (s ++ [c])) = lstrip (rstrip s)
  rw [rstrip_append_space c hc s]

/-- `pyStrip` is idempotent (Python `s.strip().strip() == s.strip()`). -/
theorem pyStrip_pyStrip (s : List Char) : pyStrip (pyStrip s) = pyStrip s := by
  show lstrip (rstrip (lstrip (rstrip s))) = lstrip (rstrip s)
  have h1 : rstrip (lstrip (rstrip s)) = lstrip (rstrip s) := by
    apply rstrip_eq_self
    intro c hc
    rcases lstrip_getLast? (rstrip s) with h | h
    · rw [h] at hc; simp at hc
    · rw [h] at hc
      exact rstrip_getLast_not_space s c hc
  rw [h1, lstrip_lstrip]

/-- A string with non-whitespace first and last characters is unchanged by
`pyStrip`. -/
theorem pyStrip_eq_self (s : List Char)
    (hh : ∀ c, s.head? = some c → isPySpace c = false)
    (hl : ∀ c, s.getLast? = some c → isPySpace c = false) : pyStrip s = s := by
  show lstrip (rstrip s) = s
  rw [rstrip_eq_self s hl]
  exact lstrip_eq_self s hh

theorem joinWith_ne_nil (sep : Char) (x : List Char) (xs : List (List Char))
    (hx : x ≠ []) : joinWith sep (x :: xs) ≠ [] := by
  cases xs with
  | nil => simpa [joinWith] using hx
  | cons y ys =>
    cases x with
    | nil => exact absurd rfl hx
    | cons a t => simp [joinWith]

theorem joinWith_head? (sep : Char) (x : List Char) (xs : List (List Char))
    (hx : x ≠ []) : (joinWith sep (x :: xs)).head? = x.head? := by
  cases xs with
  | nil => rfl
  | cons y ys =>
    cases x with
    | nil => exact absurd rfl hx
    | cons a t => simp [joinWith]

theorem joinWith_getLast? (sep : Char) (x : List Char) (xs : List (List Char))
    (h : ∀ p ∈ x :: xs, p ≠ []) :
    (joinWith sep (x :: xs)).getLast? = (xs.getLastD x).getLast? := by
  induction xs generalizing x with
  | nil => rfl
  | cons y ys ih =>
    have hy : joinWith sep (y :: ys) ≠ [] :=
      joinWith_ne_nil sep y ys (h y (by simp))
    show (x ++ sep :: joinWith sep (y :: ys)).getLast? = _
    rw [List.getLast?_append]
    cases hj : joinWith sep (y :: ys) with
    | nil => exact absurd hj hy
    | cons b u =>
      rw [List.getLast?_cons_cons]
      obtain ⟨v, hv⟩ := Option.isSome_iff_exists.mp
        (List.getLast?_isSome.mpr (by simp : (b :: u : List Char) ≠ []))
      rw [hv]
      have hor : (some v).or x.getLast? = some v := by simp
      rw [hor, ← hv, ← hj,
        ih y (fun p hp => h p (List.mem_cons_of_mem x hp)), List.getLastD_cons]

/-- Every character of a join is the separator or a character of a part. -/
theorem mem_joinWith (sep ch : Char) (parts : List (List Char))
    (h : ch ∈ joinWith sep parts) : ch = sep ∨ ∃ p ∈ parts, ch ∈ p := by
  induction parts with
  | nil => simp [joinWith] at h
  | cons x xs ih =>
    cases xs with
    | nil => exact Or.inr ⟨x, by simp, by simpa [joinWith] using h⟩
    | cons y ys =>
      simp only [joinWith, List.mem_append, List.mem_cons] at h
      rcases h with hx | hc | hrest
      · exact Or.inr ⟨x, by simp, hx⟩
      · exact Or.inl hc
      · rcases ih hrest with hsep | ⟨p, hp, hchp⟩
        · exact Or.inl hsep
        · exact Or.inr ⟨p, List.mem_cons_of_mem x hp, hchp⟩

/-- `"".join(part + "\n" for part in parts)` equals the `sep`-join followed by
one trailing separator, for nonempty `parts`. -/
theorem flatten_map_append (sep : Char) (parts : List (List Char))
    (hne : parts ≠ []) :
    (parts.map (fun l => l ++ [sep])).flatten = joinWith sep parts ++ [sep] := by
  induction parts with
  | nil => exact absurd rfl hne
  | cons x xs ih =>
    cases xs with
    | nil => simp [joinWith]
    | cons y ys =>
      simp only [List.map_cons, List.flatten_cons, joinWith] at ih ⊢
      rw [ih (by simp)]
      simp

theorem getLastD_map {α β : Type} (f : α → β) (x : α)
    (xs : List α) : (xs.map f).getLastD (f x) = f (xs.getLastD x) := by
  induction xs generalizing x with
  | nil => rfl
  | cons y ys ih => rw [List.map_cons, List.getLastD_cons, List.getLastD_cons, ih]

/-- C8 counterexample: tokenizing `"a  b"` and re-joining does not collapse the
double space — `command_to_str (str_to_command "a  b")` is `"a  b"` itself,
not the normalized `"a b"` the claim predicts (`str.split(" ")` keeps empty
tokens, and single-space re-joining restores the original run of spaces). -/
theorem normalization_fails_on_double_space :
    command_to_str (str_to_command ['a', ' ', ' ', 'b']) = ['a', ' ', ' ', 'b'] ∧
    command_to_str (str_to_command ['a', ' ', ' ', 'b']) ≠ ['a', ' ', 'b'] :=
  ⟨by decide, by decide⟩

/-- C8 (amended): for every input string `s`,
`command_to_str (str_to_command s)` equals `s` stripped of leading and
trailing whitespace; interior runs of spaces and newlines are preserved
unchanged, not collapsed (splitting keeps empty tokens and empty lines, and
re-joining restores the original separators). -/
theorem command_to_str_str_to_command (s : List Char) :
    command_to_str (str_to_command s) = pyStrip s := by
  unfold str_to_command command_to_str
  have hmap :
      ((splitOnChar '\n' (pyStrip s)).map (splitOnChar ' ')).map
          (fun line => joinWith ' ' line ++ ['\n'])
        = (splitOnChar '\n' (pyStrip s)).map (fun r => r ++ ['\n']) := by
    rw [List.map_map]
    apply List.map_congr_left
    intro r _
    simp only [Function.comp_apply, joinWith_splitOnChar]
  rw [hmap]
  have hflat : ((splitOnChar '\n' (pyStrip s)).map (fun r => r ++ ['\n'])).flatten
      = joinWith '\n' (splitOnChar '\n' (pyStrip s)) ++ ['\n'] :=
    flatten_map_append '\n' _ (splitOnChar_ne_nil '\n' (pyStrip s))
  rw [hflat, joinWith_splitOnChar, pyStrip_append_space _ '\n' (by decide),
    pyStrip_pyStrip]

/-- C1 counterexample: the grid `[["\ta"]]` has no empty line and no empty
token, and its only token contains neither a space nor a newline, yet
`str_to_command (command_to_str [["\ta"]]) = [["a"]]` — the `.strip()` inside
`command_to_str` removes the leading tab, so the round trip does not
reproduce the grid. -/
theorem roundtrip_fails_on_tab_token :
    (∀ line ∈ [[['\t', 'a']]], line ≠ ([] : List (List Char))) ∧
    (∀ line ∈ [[['\t', 'a']]], ∀ tok ∈ line,
      tok ≠ ([] : List Char) ∧ ' ' ∉ tok ∧ '\n' ∉ tok) ∧
    str_to_command (command_to_str [[['\t', 'a']]]) ≠ [[['\t', 'a']]] :=
  ⟨by decide, by decide, by decide⟩

/-- C1 (amended): the round trip `str_to_command (command_to_str c) = c` holds
for every nonempty command grid with no empty lines and no empty tokens in
which no token contains a space or newline, provided additionally that the
first character of the grid's first token and the last character of its last
token are not whitespace (otherwise the `.strip()` inside `command_to_str`
removes them, as the counterexample shows; an empty grid also fails, since
`str_to_command` always returns at least one line). -/
theorem str_to_command_command_to_str (c : List (List (List Char)))
    (hne : c ≠ [])
    (hlines : ∀ line ∈ c, line ≠ [])
    (htoks : ∀ line ∈ c, ∀ tok ∈ line, tok ≠ [])
    (hsp : ∀ line ∈ c, ∀ tok ∈ line, ' ' ∉ tok ∧ '\n' ∉ tok)
    (hfirst : ∀ ch, ((c.headD []).headD []).head? = some ch → isPySpace ch = false)
    (hlast : ∀ ch, ((c.getLastD []).getLastD []).getLast? = some ch → isPySpace ch = false) :
    str_to_command (command_to_str c) = c := by
  obtain ⟨l0, rest, rfl⟩ : ∃ l0 rest, c = l0 :: rest := by
    cases c with
    | nil => exact absurd rfl hne
    | cons l0 rest => exact ⟨l0, rest, rfl⟩
  have hjoin_ne : ∀ line ∈ l0 :: rest, joinWith ' ' line ≠ [] := by
    intro line hline
    obtain ⟨t0, ts, rfl⟩ : ∃ t0 ts, line = t0 :: ts := by
      cases line with
      | nil => exact absurd rfl (hlines _ hline)
      | cons t0 ts => exact ⟨t0, ts, rfl⟩
    exact joinWith_ne_nil ' ' t0 ts (htoks _ hline t0 (List.mem_cons_self t0 ts))
  have hparts_ne : ∀ p ∈ (l0 :: rest).map (joinWith ' '), p ≠ [] := by
    intro p hp
    obtain ⟨line, hline, rfl⟩ := List.mem_map.mp hp
    exact hjoin_ne line hline
  have hparts_nl : ∀ p ∈ (l0 :: rest).map (joinWith ' '), '\n' ∉ p := by
    intro p hp hmem
    obtain ⟨line, hline, rfl⟩ := List.mem_map.mp hp
    rcases mem_joinWith ' ' '\n' line hmem with hc | ⟨tok, htok, hcm⟩
    · exact absurd hc (by decide)
    · exact (hsp line hline tok htok).2 hcm
  have hX :
      ((l0 :: rest).map (fun line => joinWith ' ' line ++ ['\n'])).flatten
        = joinWith '\n' ((l0 :: rest).map (joinWith ' ')) ++ ['\n'] := by
    have := flatten_map_append '\n' ((l0 :: rest).map (joinWith ' ')) (by simp)
    rw [← this, List.map_map]
    rfl
  have hXhead : ∀ ch,
      (joinWith '\n' ((l0 :: rest).map (joinWith ' '))).head? = some ch →
        isPySpace ch = false := by
    intro ch h
    obtain ⟨t0, ts, hl0⟩ : ∃ t0 ts, l0 = t0 :: ts := by
      cases hl : l0 with
      | nil => exact absurd hl (hlines l0 (List.mem_cons_self l0 rest))
      | cons t0 ts => exact ⟨t0, ts, rfl⟩
    rw [List.map_cons,
      joinWith_head? '\n' _ _ (hjoin_ne l0 (List.mem_cons_self l0 rest)),
      hl0, joinWith_head? ' ' t0 ts (htoks l0 (List.mem_cons_self l0 rest) t0
        (hl0 ▸ List.mem_cons_self t0 ts))] at h
    apply hfirst ch
    simpa [hl0] using h
  have hXlast : ∀ ch,
      (joinWith '\n' ((l0 :: rest).map (joinWith ' '))).getLast? = some ch →
        isPySpace ch = false := by
    intro ch h
    rw [List.map_cons,
      joinWith_getLast? '\n' _ _ (by rw [← List.map_cons]; exact hparts_ne),
      getLastD_map (joinWith ' ') l0 rest] at h
    have hlmem : rest.getLastD l0 ∈ l0 :: rest := List.getLastD_mem_cons rest l0
    obtain ⟨t0, ts, hll⟩ : ∃ t0 ts, rest.getLastD l0 = t0 :: ts := by
      cases hl : rest.getLastD l0 with
      | nil => exact absurd hl (hlines _ hlmem)
      | cons t0 ts => exact ⟨t0, ts, rfl⟩
    rw [hll, joinWith_getLast? ' ' t0 ts (fun tok htok =>
      htoks _ hlmem tok (hll ▸ htok))] at h
    apply hlast ch
    rw [List.getLastD_cons, hll, List.getLastD_cons]
    exact h
  have hstrip : pyStrip (joinWith '\n' ((l0 :: rest).map (joinWith ' ')) ++ ['\n'])
      = joinWith '\n' ((l0 :: rest).map (joinWith ' ')) := by
    rw [pyStrip_append_space _ '\n' (by decide)]
    exact pyStrip_eq_self _ hXhead hXlast
  show str_to_command (pyStrip _) = _
  rw [hX, hstrip]
  unfold str_to_command
  rw [pyStrip_eq_self _ hXhead hXlast,
    splitOnChar_joinWith '\n' _ (by simp) hparts_nl, List.map_map]
  have : ∀ line ∈ l0 :: rest,
      splitOnChar ' ' (joinWith ' ' line) = line := by
    intro line hline
    obtain ⟨t0, ts, rfl⟩ : ∃ t0 ts, line = t0 :: ts := by
      cases line with
      | nil => exact absurd rfl (hlines _ hline)
      | cons t0 ts => exact ⟨t0, ts, rfl⟩
    exact splitOnChar_joinWith ' ' (t0 :: ts) (by simp)
      (fun tok htok => (hsp _ hline tok htok).1)
  calc ((l0 :: rest).map (splitOnChar ' ' ∘ joinWith ' '))
      = (l0 :: rest).map id := List.map_congr_left (fun line hline => this line hline)
    _ = l0 :: rest := List.map_id _

/-- Witness for the amended C1 round trip at the grid `[["set","foo"],["bar"]]`. -/
theorem str_to_command_command_to_str_witness :
    str_to_command (command_to_str [[['s', 'e', 't'], ['f', 'o', 'o']], [['b', 'a', 'r']]])
      = [[['s', 'e', 't'], ['f', 'o', 'o']], [['b', 'a', 'r']]] :=
  str_to_command_command_to_str _ (by decide) (by decide) (by decide) (by decide)
    (by decide) (by decide)

/-- The loop condition `command and all(command)` of `get_nth_word`
(main.py line 148): the command is nonempty and every line is nonempty.
The condition reads the whole (unmutated) list, so it is the same at every
iteration of the loop. -/
def eligible (command : List (List (List Char))) : Bool :=
  !command.isEmpty && command.all (fun line => !line.isEmpty)

/-- The `for widx, word in enumerate(command)` loop of `get_nth_word`
(main.py lines 147-154).  `command` is the full list the loop iterates over,
`found` and `widx` are the Python locals, and the last argument is the list
suffix still to be visited (`word` is its head).  On the returning iteration
Python evaluates `word[0]` and `del command[widx][0]`; `word[0]` is modelled
with `head?` (it can only be reached with an empty `word` for `n ≤ -1`,
where Python would raise `IndexError`; every claim below has `n ≥ 0`). -/
def get_nth_word_go (command : List (List (List Char))) (n found : Int)
    (widx : Nat) : List (List (List Char)) → Option (List Char) × List (List (List Char))
  | [] => (none, command)
  | word :: rest =>
    let found' := if eligible command then found + 1 else found
    if found' - 1 = n then (word.head?, command.set widx word.tail)
    else get_nth_word_go command n found' (widx + 1) rest

/-- `get_nth_word` (main.py lines 144-156).  Python mutates `command` in
place and returns a token or `None`; the model returns the pair of the
result and the updated command. -/
def get_nth_word (command : List (List (List Char))) (n : Int) :
    Option (List Char) × List (List (List Char)) :=
  get_nth_word_go command n 0 0 command

theorem eligible_of_mem_nil (command : List (List (List Char)))
    (hmem : ([] : List (List Char)) ∈ command) : eligible command = false := by
  have hall : command.all (fun line => !line.isEmpty) = false := by
    rw [List.all_eq_false]
    exact ⟨[], hmem, by simp⟩
  simp [eligible, hall]

/-- In the eligible case the loop, entered at position `widx` with
`found = widx`, extracts the head of line `n` and shrinks that line. -/
theorem get_nth_word_go_extracts (command : List (List (List Char)))
    (hel : eligible command = true) :
    ∀ (k widx n : Nat), widx + k = n → ∀ (hn : n < command.length),
      get_nth_word_go command (n : Int) (widx : Int) widx (command.drop widx) =
        ((command.get ⟨n, hn⟩).head?,
          command.set n (command.get ⟨n, hn⟩).tail) := by
  intro k
  induction k with
  | zero =>
    intro widx n hwn hn
    subst hwn
    rw [List.drop_eq_get_cons (by simpa using hn)]
    show get_nth_word_go command _ _ _ (_ :: _) = _
    simp only [get_nth_word_go, hel, if_true]
    rw [if_pos (by omega)]
    simp
  | succ k ih =>
    intro widx n hwn hn
    have hwlt : widx < n := by omega
    have hwl : widx < command.length := by omega
    rw [List.drop_eq_get_cons (by simpa using hwl)]
    show get_nth_word_go command _ _ _ (_ :: _) = _
    simp only [get_nth_word_go, hel, if_true]
    rw [if_neg (by omega)]
    have : ((widx : Int) + 1) = ((widx + 1 : Nat) : Int) := by push_cast; ring
    rw [this]
    exact ih (widx + 1) n (by omega) hn

/-- C2: on a grid whose every line is nonempty, `get_nth_word(command, n)`
with `0 ≤ n <` number of lines returns the first token of line `n` and
removes exactly that token from line `n`, leaving the other lines intact. -/
theorem get_nth_word_extracts_head (command : List (List (List Char)))
    (n : Nat) (hlines : ∀ line ∈ command, line ≠ []) (hn : n < command.length) :
    ∃ hd tl, command.get ⟨n, hn⟩ = hd :: tl ∧
      get_nth_word command (n : Int) = (some hd, command.set n tl) := by
  have hne : command ≠ [] := by
    intro h
    rw [h] at hn
    simp at hn
  have hel : eligible command = true := by
    simp [eligible, List.all_eq_true, List.isEmpty_iff]
    exact ⟨hne, fun line hmem h => hlines line hmem h⟩
  obtain ⟨hd, tl, hline⟩ : ∃ hd tl, command.get ⟨n, hn⟩ = hd :: tl := by
    cases hl : command.get ⟨n, hn⟩ with
    | nil => exact absurd hl (hlines _ (command.get_mem n hn))
    | cons hd tl => exact ⟨hd, tl, rfl⟩
  refine ⟨hd, tl, hline, ?_⟩
  have hgo := get_nth_word_go_extracts command hel n 0 n (by omega) hn
  rw [List.drop_zero] at hgo
  simp only [Nat.cast_zero] at hgo
  show get_nth_word_go command (n : Int) 0 0 command = _
  rw [hgo, hline]
  rfl

/-- Witness for C2 at the grid `[["set","foo","bar"]]`: the first call with
`n = 0` returns `"set"` leaving `[["foo","bar"]]`, and a second call on the
result returns `"foo"`. -/
theorem get_nth_word_extracts_head_witness :
    (∃ hd tl, ([[['s', 'e', 't'], ['f', 'o', 'o'], ['b', 'a', 'r']]] :
        List (List (List Char))).get ⟨0, by decide⟩ = hd :: tl ∧
      get_nth_word [[['s', 'e', 't'], ['f', 'o', 'o'], ['b', 'a', 'r']]] ((0 : Nat) : Int) =
        (some hd, [[['s', 'e', 't'], ['f', 'o', 'o'], ['b', 'a', 'r']]].set 0 tl)) ∧
    (∃ hd tl, ([[['f', 'o', 'o'], ['b', 'a', 'r']]] :
        List (List (List Char))).get ⟨0, by decide⟩ = hd :: tl ∧
      get_nth_word [[['f', 'o', 'o'], ['b', 'a', 'r']]] ((0 : Nat) : Int) =
        (some hd, [[['f', 'o', 'o'], ['b', 'a', 'r']]].set 0 tl)) :=
  ⟨get_nth_word_extracts_head _ 0 (by decide) (by decide),
   get_nth_word_extracts_head _ 0 (by decide) (by decide)⟩

/-- In the eligible case the loop never fires once past `n`: entered at
position `widx` with `found = widx` and `n ≥` number of lines, it runs off
the end and returns `None` with the command untouched. -/
theorem get_nth_word_go_out_of_range (command : List (List (List Char)))
    (hel : eligible command = true) (n : Nat) (hn : command.length ≤ n) :
    ∀ (rest : List (List (List Char))) (widx : Nat), rest = command.drop widx →
      get_nth_word_go command (n : Int) (widx : Int) widx rest = (none, command) := by
  intro rest
  induction rest with
  | nil => intro widx _; rfl
  | cons word rest' ih =>
    intro widx hrest
    have hwl : widx < command.length := by
      by_contra hge
      rw [List.drop_eq_nil_iff.mpr (by omega)] at hrest
      exact List.cons_ne_nil word rest' hrest
    show get_nth_word_go command _ _ _ (_ :: _) = _
    simp only [get_nth_word_go, hel, if_true]
    rw [if_neg (by omega)]
    have hdrop : command.drop (widx + 1) = rest' := by
      have := List.drop_eq_get_cons (l := command) (n := widx) (by simpa using hwl)
      rw [← hrest] at this
      exact (List.cons.injEq _ _ _ _ ▸ this).2.symm
    have hcast : ((widx : Int) + 1) = ((widx + 1 : Nat) : Int) := by push_cast; ring
    rw [hcast]
    exact ih (widx + 1) hdrop.symm

/-- In the ineligible case (`command and all(command)` false) `found` stays 0,
`found - 1 = -1` never equals `n ≥ 0`, and the loop returns `None` with the
command untouched. -/
theorem get_nth_word_go_ineligible (command : List (List (List Char)))
    (hel : eligible command = false) (n : Nat) :
    ∀ (rest : List (List (List Char))) (widx : Nat),
      get_nth_word_go command (n : Int) 0 widx rest = (none, command) := by
  intro rest
  induction rest with
  | nil => intro widx; rfl
  | cons word rest' ih =>
    intro widx
    show get_nth_word_go command _ _ _ (_ :: _) = _
    simp only [get_nth_word_go, hel, if_false, Bool.false_eq_true]
    rw [if_neg (by omega)]
    exact ih (widx + 1)

/-- C7: for every grid and every `n ≥ 0`, if `n` is at least the number of
lines, or the grid contains an empty line, then `get_nth_word` returns `None`
and leaves the grid unmodified. -/
theorem get_nth_word_failure_non_mutating (command : List (List (List Char)))
    (n : Nat)
    (h : command.length ≤ n ∨ ∃ line ∈ command, line = []) :
    get_nth_word command (n : Int) = (none, command) := by
  cases hel : eligible command with
  | false =>
    show get_nth_word_go command (n : Int) 0 0 command = _
    exact get_nth_word_go_ineligible command hel n command 0
  | true =>
    have hlen : command.length ≤ n := by
      rcases h with hlen | ⟨line, hmem, hnil⟩
      · exact hlen
      · rw [eligible_of_mem_nil command (hnil ▸ hmem)] at hel
        exact absurd hel (by simp)
    show get_nth_word_go command (n : Int) 0 0 command = _
    have := get_nth_word_go_out_of_range command hel n hlen command 0 (by rw [List.drop_zero])
    simpa using this

/-- Witness for C7: `n = 2` is out of range for `[["set"]]` (no mutation), and
the grid `[["a"],[]]` has an empty line (no mutation either). -/
theorem get_nth_word_failure_non_mutating_witness :
    get_nth_word [[['s', 'e', 't']]] ((2 : Nat) : Int) = (none, [[['s', 'e', 't']]]) ∧
    get_nth_word [[['a']], []] ((0 : Nat) : Int) = (none, [[['a']], []]) :=
  ⟨get_nth_word_failure_non_mutating _ 2 (Or.inl (by decide)),
   get_nth_word_failure_non_mutating _ 0 (Or.inr ⟨[], by decide, rfl⟩)⟩

/-- Python dict lookup (`key in cache` / `cache[key]`), over an association
list whose keys are kept distinct by the cache code below. -/
def dict_lookup (key : List Char) : List (List Char × List Char) → Option (List Char)
  | [] => none
  | (k, v) :: rest => if k = key then some v else dict_lookup key rest

/-- One call of `pformat_cached` (main.py lines 80-91) acting on its cache:
if the population strictly exceeds `cache-sz`, the whole cache is cleared
(even on what would otherwise be a hit — the clear is checked first, and the
`elif` skips the hit test); otherwise a hit returns the cached value, and a
miss computes, inserts, and returns.  `compute` stands for
`pprint.pformat` and `key` for the derived `f"{type(string)}.{string}"` key;
`command_to_str` (lines 97-104) and `str_to_command` (lines 109-117) follow
the identical pattern on their own cache instances.  Returns the result and
the updated cache. -/
def pformat_cached (cacheSz : Nat) (compute : List Char → List Char)
    (cache : List (List Char × List Char)) (key : List Char) :
    List Char × List (List Char × List Char) :=
  if cacheSz < cache.length then
    (compute key, [(key, compute key)])
  else
    match dict_lookup key cache with
    | some v => (v, cache)
    | none => (compute key, (key, compute key) :: cache)

/-- A sequence of `pformat_cached` calls, threading the cache. -/
def run_cache (cacheSz : Nat) (compute : List Char → List Char)
    (keys : List (List Char)) (cache : List (List Char × List Char)) :
    List (List Char × List Char) :=
  keys.foldl (fun c k => (pformat_cached cacheSz compute c k).2) cache

theorem dict_lookup_cons_ne (key k : List Char) (v : List Char)
    (rest : List (List Char × List Char)) (h : k ≠ key) :
    dict_lookup key ((k, v) :: rest) = dict_lookup key rest := by
  simp [dict_lookup, h]

/-- Running distinct fresh keys that fit under the bound grows the cache by
exactly one entry per key (each call is a miss and no clear fires). -/
theorem run_cache_length (cacheSz : Nat) (compute : List Char → List Char) :
    ∀ (keys : List (List Char)) (cache : List (List Char × List Char)),
      keys.Nodup → (∀ k ∈ keys, dict_lookup k cache = none) →
      cache.length + keys.length ≤ cacheSz + 1 →
      (run_cache cacheSz compute keys cache).length = cache.length + keys.length := by
  intro keys
  induction keys with
  | nil => intro cache _ _ _; simp [run_cache]
  | cons k ks ih =>
    intro cache hnd hfresh hlen
    have hstep : (pformat_cached cacheSz compute cache k).2 =
        (k, compute k) :: cache := by
      unfold pformat_cached
      rw [if_neg (by simp at hlen; omega), hfresh k (List.mem_cons_self k ks)]
    show (run_cache cacheSz compute ks ((pformat_cached cacheSz compute cache k).2)).length = _
    rw [hstep]
    have hfresh' : ∀ k' ∈ ks, dict_lookup k' ((k, compute k) :: cache) = none := by
      intro k' hk'
      rw [dict_lookup_cons_ne k' k (compute k) cache
        (fun he => (List.nodup_cons.mp hnd).1 (he ▸ hk'))]
      exact hfresh k' (List.mem_cons_of_mem k hk')
    rw [ih ((k, compute k) :: cache) (List.nodup_cons.mp hnd).2 hfresh'
      (by simp at hlen ⊢; omega)]
    simp
    omega

/-- C3: inserting `cache-sz + 1` distinct keys into an empty bounded cache
makes its population exceed the bound, so the next call — with any key,
including one that would otherwise be a hit — wipes the whole cache before
the new entry is considered, leaving exactly the one new entry, hence a
population of at most 1. -/
theorem bounded_cache_wipe (cacheSz : Nat) (compute : List Char → List Char)
    (keys : List (List Char)) (hnd : keys.Nodup)
    (hlen : keys.length = cacheSz + 1) (k : List Char) :
    cacheSz < (run_cache cacheSz compute keys []).length ∧
    (pformat_cached cacheSz compute (run_cache cacheSz compute keys []) k).2 =
      [(k, compute k)] ∧
    (pformat_cached cacheSz compute (run_cache cacheSz compute keys []) k).2.length ≤ 1 := by
  have hfull : (run_cache cacheSz compute keys []).length = cacheSz + 1 := by
    have := run_cache_length cacheSz compute keys [] hnd
      (fun k _ => rfl) (by simp [hlen])
    simpa [hlen] using this
  refine ⟨by omega, ?_, ?_⟩
  · unfold pformat_cached
    rw [if_pos (by omega)]
  · unfold pformat_cached
    rw [if_pos (by omega)]
    simp

/-- Witness for C3 with bound 1, distinct keys `["a"], ["b"]` and a final
lookup of the previously-inserted key `["a"]`. -/
theorem bounded_cache_wipe_witness :
    1 < (run_cache 1 id [['a'], ['b']] []).length ∧
    (pformat_cached 1 id (run_cache 1 id [['a'], ['b']] []) ['a']).2 =
      [(['a'], ['a'])] ∧
    (pformat_cached 1 id (run_cache 1 id [['a'], ['b']] []) ['a']).2.length ≤ 1 := by
  have h := bounded_cache_wipe 1 id [['a'], ['b']] (by decide) (by decide) ['a']
  exact ⟨h.1, by simpa using h.2.1, h.2.2⟩

/-- The chunk generator of `_send_message` (main.py lines 164-166):
`(message[i : i + 2000] for i in range(0, len(message), 2000))`.
`range(0, len, 2000)` has `(len + 1999) / 2000` elements and its `i`-th
element is `2000 * i`; `message[i : i + 2000]` is drop-then-take. -/
def chunks2000 (message : List Char) : List (List Char) :=
  (List.range ((message.length + 1999) / 2000)).map
    (fun i => (message.drop (2000 * i)).take 2000)

/-- The truncation warning of main.py lines 169-171:
`f"***Message chunk count exceeded ({CONFIG['chunk-limit']}), message too long!***"`. -/
def chunk_warning (chunkLimit : Nat) : List Char :=
  "***Message chunk count exceeded (".data ++ (Nat.repr chunkLimit).data
    ++ "), message too long!***".data

/-- The `for chunk_idx, chunk in enumerate(...)` loop of `_send_message`
(main.py lines 164-174): each chunk is sent as `f"{chunk}\n"`; as soon as
`chunk_idx > CONFIG["chunk-limit"]`, the single warning is sent and the
loop returns. -/
def send_message_go (chunkLimit idx : Nat) : List (List Char) → List (List Char)
  | [] => []
  | chunk :: rest =>
    if chunkLimit < idx then [chunk_warning chunkLimit]
    else (chunk ++ ['\n']) :: send_message_go chunkLimit (idx + 1) rest

/-- `_send_message` (main.py lines 163-174), as the ordered list of payloads
passed to `cchannel.send`. -/
def send_message (chunkLimit : Nat) (message : List Char) : List (List Char) :=
  send_message_go chunkLimit 0 (chunks2000 message)

theorem chunks_div_succ (L : Nat) (hL : 1 ≤ L) :
    (L + 1999) / 2000 = (L - 2000 + 1999) / 2000 + 1 := by
  rcases le_or_lt L 2000 with hle | hlt
  · have h0 : L - 2000 = 0 := by omega
    rw [h0]
    have h1 : (1999 : Nat) / 2000 = 0 := by norm_num
    rw [h1]
    exact Nat.div_eq_of_lt_le (by omega) (by omega)
  · have h2 : L - 2000 + 1999 = L - 1 := by omega
    have h3 : L + 1999 = (L - 1) + 2000 := by omega
    rw [h2, h3, Nat.add_div_right _ (by norm_num)]

/-- `chunks2000` satisfies the head-chunk recurrence. -/
theorem chunks2000_cons (s : List Char) (hs : s ≠ []) :
    chunks2000 s = s.take 2000 :: chunks2000 (s.drop 2000) := by
  have hlen : 1 ≤ s.length := List.length_pos.mpr hs
  unfold chunks2000
  rw [List.length_drop, chunks_div_succ s.length hlen, List.range_succ_eq_map,
    List.map_cons]
  congr 1
  · simp
    intro a _
    congr 2
    omega

theorem chunks2000_flatten_aux :
    ∀ (n : Nat) (s : List Char), s.length ≤ n → (chunks2000 s).flatten = s := by
  intro n
  induction n with
  | zero =>
    intro s hs
    have : s = [] := List.length_eq_zero.mp (by omega)
    subst this
    rfl
  | succ n ih =>
    intro s hs
    by_cases hnil : s = []
    · subst hnil; rfl
    · rw [chunks2000_cons s hnil, List.flatten_cons,
        ih (s.drop 2000) (by rw [List.length_drop]; omega)]
      exact List.take_append_drop 2000 s

/-- The chunks concatenate back to the whole message: no characters are lost
or reordered by chunking. -/
theorem chunks2000_flatten (s : List Char) : (chunks2000 s).flatten = s :=
  chunks2000_flatten_aux s.length s (Nat.le_refl _)

theorem chunks2000_length_le (s : List Char) :
    ∀ c ∈ chunks2000 s, c.length ≤ 2000 := by
  intro c hc
  obtain ⟨i, _, rfl⟩ := List.mem_map.mp hc
  exact (List.length_take_le 2000 _)

/-- Closed form of the send loop, entered at index `idx ≤ chunk-limit + 1`:
the next `chunk-limit + 1 - idx` chunks are sent (each with a newline
appended), and one warning follows exactly when chunks remain beyond that. -/
theorem send_message_go_eq (chunkLimit : Nat) :
    ∀ (cs : List (List Char)) (idx : Nat), idx ≤ chunkLimit + 1 →
      send_message_go chunkLimit idx cs =
        (cs.take (chunkLimit + 1 - idx)).map (fun c => c ++ ['\n']) ++
          (if chunkLimit + 1 - idx < cs.length then [chunk_warning chunkLimit]
            else []) := by
  intro cs
  induction cs with
  | nil => intro idx _; simp [send_message_go]
  | cons c cs ih =>
    intro idx hidx
    by_cases hgt : chunkLimit < idx
    · have hix : idx = chunkLimit + 1 := by omega
      subst hix
      show send_message_go _ _ (_ :: _) = _
      simp only [send_message_go]
      rw [if_pos hgt]
      have h0 : chunkLimit + 1 - (chunkLimit + 1) = 0 := by omega
      rw [h0]
      simp
    · show send_message_go _ _ (_ :: _) = _
      simp only [send_message_go]
      rw [if_neg hgt, ih (idx + 1) (by omega)]
      have hk : chunkLimit + 1 - idx = (chunkLimit + 1 - (idx + 1)) + 1 := by omega
      rw [hk, List.take_succ_cons, List.map_cons, List.cons_append]
      congr 1
      have hiff : (chunkLimit + 1 - (idx + 1)) + 1 < (c :: cs).length ↔
          chunkLimit + 1 - (idx + 1) < cs.length := by
        simp only [List.length_cons]
        omega
      by_cases hlt : chunkLimit + 1 - (idx + 1) < cs.length
      · rw [if_pos hlt, if_pos (hiff.mpr hlt)]
      · rw [if_neg hlt, if_neg (fun hx => hlt (hiff.mp hx))]

/-- Closed form of `_send_message`: the first `chunk-limit + 1` chunks are
sent in order with a newline appended to each, and a single truncation
warning follows exactly when more chunks exist. -/
theorem send_message_eq (chunkLimit : Nat) (msg : List Char) :
    send_message chunkLimit msg =
      ((chunks2000 msg).take (chunkLimit + 1)).map (fun c => c ++ ['\n']) ++
        (if chunkLimit + 1 < (chunks2000 msg).length then [chunk_warning chunkLimit]
          else []) := by
  have h := send_message_go_eq chunkLimit (chunks2000 msg) 0 (by omega)
  simpa using h

/-- C5 counterexample: a 6001-character message splits into 4 chunks, and with
`chunk-limit = 2` `_send_message` emits 4 payloads (the chunks of indices
0, 1 and 2 — `chunk_idx > 2` first fails at index 3 — followed by the
warning), not the 3 payloads the claim predicts. -/
theorem send_message_emits_four_not_three :
    (chunks2000 (List.replicate 6001 'a')).length = 4 ∧
    (send_message 2 (List.replicate 6001 'a')).length = 4 ∧
    (send_message 2 (List.replicate 6001 'a')).length ≠ 3 := by
  have hlen : (chunks2000 (List.replicate 6001 'a')).length = 4 := by
    unfold chunks2000
    rw [List.length_map, List.length_range, List.length_replicate]
  refine ⟨hlen, ?_, ?_⟩ <;>
    · rw [send_message_eq, if_pos (by rw [hlen]; omega)]
      simp only [List.length_append, List.length_map, List.length_take, hlen,
        List.length_singleton]
      omega

/-- C5 (amended): with `chunk-limit = 2` and an input that splits into 4
transport-size chunks, `_send_message` emits exactly 4 outputs — the first
3 content chunks (indices 0 through chunk-limit, each with a newline
appended) followed by 1 truncation warning; the remaining chunk is dropped
and no already-sent chunk is retracted. -/
theorem send_message_chunk_limit_shape (msg : List Char)
    (h4 : (chunks2000 msg).length = 4) :
    send_message 2 msg =
      ((chunks2000 msg).take 3).map (fun c => c ++ ['\n']) ++ [chunk_warning 2] ∧
    (send_message 2 msg).length = 4 := by
  have he := send_message_eq 2 msg
  rw [h4, if_pos (by omega)] at he
  refine ⟨he, ?_⟩
  rw [he]
  simp only [List.length_append, List.length_map, List.length_take, h4,
    List.length_singleton]
  omega

/-- Witness for the amended C5 at the 6001-character message. -/
theorem send_message_chunk_limit_shape_witness :
    (chunks2000 (List.replicate 6001 'a')).length = 4 ∧
    (send_message 2 (List.replicate 6001 'a') =
      ((chunks2000 (List.replicate 6001 'a')).take 3).map (fun c => c ++ ['\n']) ++
        [chunk_warning 2] ∧
      (send_message 2 (List.replicate 6001 'a')).length = 4) :=
  ⟨by unfold chunks2000
      rw [List.length_map, List.length_range, List.length_replicate],
   send_message_chunk_limit_shape _ (by
      unfold chunks2000
      rw [List.length_map, List.length_range, List.length_replicate])⟩

/-- C9 counterexample: a 2000-character message is sent as a single payload of
2001 characters — `f"{chunk}\n"` appends a newline to the 2000-character
slice — so "every emitted payload is at most 2000 characters" fails. -/
theorem send_message_payload_exceeds_transport_size :
    send_message 4 (List.replicate 2000 'a') =
      [List.replicate 2000 'a' ++ ['\n']] ∧
    ∀ p ∈ send_message 4 (List.replicate 2000 'a'), p.length = 2001 := by
  have hrep : (List.replicate 2000 'a') ≠ [] := by
    intro h
    rw [List.replicate_eq_nil_iff] at h
    omega
  have hch : chunks2000 (List.replicate 2000 'a') = [List.replicate 2000 'a'] := by
    rw [chunks2000_cons _ hrep, List.take_replicate, List.drop_replicate]
    have hmin : min 2000 2000 = 2000 := by omega
    have hsub : 2000 - 2000 = 0 := by omega
    rw [hmin, hsub, List.replicate_zero]
    rfl
  have hsend : send_message 4 (List.replicate 2000 'a') =
      [List.replicate 2000 'a' ++ ['\n']] := by
    rw [send_message_eq, hch]
    rw [if_neg (by simp only [List.length_singleton]; omega)]
    rfl
  refine ⟨hsend, ?_⟩
  rw [hsend]
  intro p hp
  simp only [List.mem_singleton] at hp
  subst hp
  rw [List.length_append, List.length_replicate, List.length_singleton]

/-- C9 (amended): the content chunks emitted by `_send_message` are the
consecutive 2000-character slices of the text, in increasing order: the
emitted sequence is the first `chunk-limit + 1` slices each with a newline
appended (then possibly one warning), each slice is at most 2000 characters
and their concatenation is a prefix of the input (all slices together
reconstitute it exactly); each emitted content payload is however at most
2001 characters, not 2000 — the newline appended by `f"{chunk}\n"` rides on
top of a full slice. -/
theorem send_message_chunk_order (chunkLimit : Nat) (msg : List Char) :
    send_message chunkLimit msg =
      ((chunks2000 msg).take (chunkLimit + 1)).map (fun c => c ++ ['\n']) ++
        (if chunkLimit + 1 < (chunks2000 msg).length then [chunk_warning chunkLimit]
          else []) ∧
    (chunks2000 msg).flatten = msg ∧
    (∀ c ∈ chunks2000 msg, c.length ≤ 2000) ∧
    ((chunks2000 msg).take (chunkLimit + 1)).flatten <+: msg ∧
    (∀ p ∈ ((chunks2000 msg).take (chunkLimit + 1)).map (fun c => c ++ ['\n']),
      p.length ≤ 2001) := by
  refine ⟨send_message_eq chunkLimit msg, chunks2000_flatten msg,
    chunks2000_length_le msg, ?_, ?_⟩
  · refine ⟨((chunks2000 msg).drop (chunkLimit + 1)).flatten, ?_⟩
    rw [← List.flatten_append, List.take_append_drop, chunks2000_flatten]
  · intro p hp
    obtain ⟨c, hc, rfl⟩ := List.mem_map.mp hp
    have hcl : c.length ≤ 2000 :=
      chunks2000_length_le msg c (List.mem_of_mem_take hc)
    simp only [List.length_append, List.length_singleton]
    omega

/-- Witness for the amended C9 at `chunk-limit = 4` and the message `"hi"`. -/
theorem send_message_chunk_order_witness :
    send_message 4 ['h', 'i'] =
      ((chunks2000 ['h', 'i']).take 5).map (fun c => c ++ ['\n']) ++
        (if 5 < (chunks2000 ['h', 'i']).length then [chunk_warning 4] else []) ∧
    (chunks2000 ['h', 'i']).flatten = ['h', 'i'] ∧
    (∀ c ∈ chunks2000 ['h', 'i'], c.length ≤ 2000) ∧
    ((chunks2000 ['h', 'i']).take 5).flatten <+: ['h', 'i'] ∧
    (∀ p ∈ ((chunks2000 ['h', 'i']).take 5).map (fun c => c ++ ['\n']),
      p.length ≤ 2001) :=
  send_message_chunk_order 4 ['h', 'i']

theorem str_to_command_ne_nil (s : List Char) : str_to_command s ≠ [] := by
  unfold str_to_command
  intro h
  rw [List.map_eq_nil_iff] at h
  exact splitOnChar_ne_nil '\n' (pyStrip s) h

theorem str_to_command_lines_ne_nil (s : List Char) :
    ∀ line ∈ str_to_command s, line ≠ [] := by
  intro line hline
  obtain ⟨r, _, rfl⟩ := List.mem_map.mp hline
  exact splitOnChar_ne_nil ' ' r

theorem eligible_of_lines (command : List (List (List Char)))
    (hne : command ≠ []) (hl : ∀ line ∈ command, line ≠ []) :
    eligible command = true := by
  simp [eligible, List.all_eq_true, List.isEmpty_iff]
  exact ⟨hne, fun line hmem h => hl line hmem h⟩

/-- On a nonempty grid of nonempty lines, extracting word 0 always yields a
token. -/
theorem get_nth_word_zero_isSome (command : List (List (List Char)))
    (hne : command ≠ []) (hl : ∀ line ∈ command, line ≠ []) :
    (get_nth_word command 0).1.isSome = true := by
  have hel : eligible command = true := eligible_of_lines command hne hl
  have hlen : 0 < command.length := List.length_pos.mpr hne
  have hgo := get_nth_word_go_extracts command hel 0 0 0 (by omega) hlen
  rw [List.drop_zero] at hgo
  simp only [Nat.cast_zero] at hgo
  show (get_nth_word_go command 0 0 0 command).1.isSome = true
  rw [hgo]
  cases hg : command.get ⟨0, hlen⟩ with
  | nil => exact absurd hg (hl _ (command.get_mem 0 hlen))
  | cons a t => simp [hg]

/-- Python `str.removeprefix`: drop the marker if the string starts with it,
otherwise return the string unchanged. -/
def removeprefixPy (p s : List Char) : List Char :=
  if p.isPrefixOf s then s.drop p.length else s

/-- A chat role as the dispatcher sees it: an identity and a display name
(`role in message.author.roles` compares identities; `role.name[0]` reads the
name). -/
structure Role where
  id : Nat
  name : List Char
deriving DecidableEq

/-- The fields of the inbound event that `on_message` (main.py lines 575-681)
reads: whether the author is a bot, the text content, the author's roles and
the bot's own roles in the guild (`get_member(self.user.id).roles`; the
`AttributeError` fallback when the member lookup fails is not modelled —
the claims below all provide the roles). -/
structure Msg where
  authorBot : Bool
  content : List Char
  authorRoles : List Role
  botRoles : List Role
deriving DecidableEq

/-- The outcome of one `on_message` call, abstracting which send/handler path
was taken (response rendering is elided; `dispatched` carries the handler
name and the command grid left after the name was extracted). -/
inductive DispatchResult where
  | ignored
  | noteShown (content : List Char)
  | noteList
  | noteMissing (name : List Char)
  | permissionDenied
  | emptyCommand
  | dispatched (cmd : List Char) (rest : List (List (List Char)))
  | unknownCommand (cmd : List Char)
  | invalidTokens
deriving DecidableEq

/-- The handler names registered by convention on `BotCommandsParser`
(main.py lines 199-524): `getattr(self.parser, f"cmd_{cmd}")` succeeds
exactly for these. -/
def cmd_names : List (List Char) :=
  ["say".data, "set".data, "del".data, "cya".data, "list".data, "help".data,
   "sql".data, "config".data, "sh".data, "botfetch".data, "sayd".data,
   "dumpcache".data, "dumpcachep".data, "status".data, "warm".data,
   "banana".data]

/-- `on_message` (main.py lines 575-681) up to the dispatch decision:
bot-author / prefix filter, tokenization, the note-prefix fast path (which
runs before the permission gate), the permission gate
(`role in message.author.roles and not role.name[0] == "@"` over the bot's
roles), the empty-command and token-extraction fallbacks, and handler
resolution.  `store` is the note table keyed by name.  `role.name[0]` is
modelled as `role.name.head?` (Python would raise on an empty role name;
no claim involves one). -/
def on_message (pfx npfx : List Char) (store : List (List Char × List Char))
    (msg : Msg) : DispatchResult :=
  if msg.authorBot || !(pfx.isPrefixOf msg.content || npfx.isPrefixOf msg.content) then
    DispatchResult.ignored
  else
    let command_str := removeprefixPy pfx msg.content
    let command := str_to_command command_str
    if npfx.isPrefixOf command_str then
      let note_name := removeprefixPy npfx ((command.headD []).headD [])
      match dict_lookup note_name store with
      | some content => DispatchResult.noteShown content
      | none =>
        if pyStrip note_name = [] then DispatchResult.noteList
        else DispatchResult.noteMissing note_name
    else if !(msg.botRoles.any (fun role =>
        msg.authorRoles.contains role && !(role.name.head? == some '@'))) then
      DispatchResult.permissionDenied
    else if command.isEmpty then DispatchResult.emptyCommand
    else
      match get_nth_word command 0 with
      | (some cmd, rest) =>
        if cmd_names.contains cmd then DispatchResult.dispatched cmd rest
        else DispatchResult.unknownCommand cmd
      | (none, _) => DispatchResult.invalidTokens

/-- C6: a command message (command prefix present, note prefix absent) from a
non-bot author all of whose roles are the implicit `@everyone` role is
answered with the permission-denied response: the dispatch stops there and
no handler runs. -/
theorem permission_gate_denies (pfx npfx : List Char)
    (store : List (List Char × List Char)) (msg : Msg)
    (hbot : msg.authorBot = false)
    (hpfx : pfx.isPrefixOf msg.content = true)
    (hnote : npfx.isPrefixOf (removeprefixPy pfx msg.content) = false)
    (hroles : ∀ r ∈ msg.authorRoles, r.name = "@everyone".data) :
    on_message pfx npfx store msg = DispatchResult.permissionDenied := by
  have hgate : msg.botRoles.any (fun role =>
      msg.authorRoles.contains role && !(role.name.head? == some '@')) = false := by
    rw [List.any_eq_false]
    intro role _
    by_cases hc : msg.authorRoles.contains role = true
    · have hrmem : role ∈ msg.authorRoles := List.elem_iff.mp hc
      rw [hc, hroles role hrmem]
      simp
    · rw [Bool.not_eq_true] at hc
      rw [hc]
      simp
  unfold on_message
  rw [if_neg (by simp [hbot, hpfx])]
  simp only [hnote, Bool.false_eq_true, if_false, hgate, Bool.not_false, if_true]

/-- Witness for C6: prefix `'`, note prefix `"`, message `'say hi`, author
holding only `@everyone`; the bot shares `@everyone` and has a `bot` role. -/
theorem permission_gate_denies_witness :
    on_message ['\''] ['"'] []
      { authorBot := false,
        content := ['\'', 's', 'a', 'y', ' ', 'h', 'i'],
        authorRoles := [⟨0, "@everyone".data⟩],
        botRoles := [⟨0, "@everyone".data⟩, ⟨1, ['b', 'o', 't']⟩] } =
      DispatchResult.permissionDenied :=
  permission_gate_denies _ _ _ _ rfl (by decide) (by decide) (by decide)

/-- The outcome of one `cmd_set` call. -/
inductive SetOutcome where
  | help
  | duplicate (name : List Char)
  | saved (name : List Char)
deriving DecidableEq

/-- Modelled from the spec: the SQLAlchemy `add`/`commit` against the `notes`
table is library code outside this repository; the table declares `name` as
primary key (main.py lines 55-63), and spec section 4.5 specifies that
`create` fails with `DuplicateName` when the name already exists and that
the rollback leaves no partial row.  Inserting a fresh name prepends the
pair; inserting an existing name yields `none` (the `IntegrityError`). -/
def db_insert_note (store : List (List Char × List Char))
    (name content : List Char) : Option (List (List Char × List Char)) :=
  if (dict_lookup name store).isSome then none
  else some ((name, content) :: store)

/-- `cmd_set` (main.py lines 215-235): extract the note name destructively
from the command; on extraction failure show the usage help; otherwise try
to insert `(name, command_to_str(remaining command))` — an `IntegrityError`
(duplicate primary key) is rolled back and reported, leaving the store
unchanged. -/
def cmd_set (store : List (List Char × List Char))
    (command : List (List (List Char))) :
    SetOutcome × List (List Char × List Char) :=
  match get_nth_word command 0 with
  | (none, _) => (SetOutcome.help, store)
  | (some note_name, command') =>
    match db_insert_note store note_name (command_to_str command') with
    | none => (SetOutcome.duplicate note_name, store)
    | some store' => (SetOutcome.saved note_name, store')

/-- C4: creating a note under a name that already exists fails with the
duplicate-name outcome, the store is left exactly as it was (the rollback
leaves no partial row), and the stored content for that name is unchanged. -/
theorem cmd_set_duplicate_rolls_back (store : List (List Char × List Char))
    (command : List (List (List Char))) (name a : List Char)
    (hname : (get_nth_word command 0).1 = some name)
    (hexists : dict_lookup name store = some a) :
    (cmd_set store command).1 = SetOutcome.duplicate name ∧
    (cmd_set store command).2 = store ∧
    dict_lookup name (cmd_set store command).2 = some a := by
  unfold cmd_set
  cases hg : get_nth_word command 0 with
  | mk fst snd =>
    rw [hg] at hname
    simp only at hname
    subst hname
    simp [db_insert_note, hexists]

/-- Witness for C4: `create("x","a")` on the empty store saves, and a second
`create("x","b")` is refused with the store still mapping `"x"` to `"a"`. -/
theorem cmd_set_duplicate_rolls_back_witness :
    cmd_set [] [[['x'], ['a']]] = (SetOutcome.saved ['x'], [(['x'], ['a'])]) ∧
    ((get_nth_word [[['x'], ['b']]] 0).1 = some ['x'] ∧
      dict_lookup ['x'] [(['x'], ['a'])] = some ['a']) ∧
    ((cmd_set [(['x'], ['a'])] [[['x'], ['b']]]).1 = SetOutcome.duplicate ['x'] ∧
      (cmd_set [(['x'], ['a'])] [[['x'], ['b']]]).2 = [(['x'], ['a'])] ∧
      dict_lookup ['x'] (cmd_set [(['x'], ['a'])] [[['x'], ['b']]]).2 = some ['a']) :=
  ⟨by decide, ⟨by decide, by decide⟩,
   cmd_set_duplicate_rolls_back _ _ _ _ (by decide) (by decide)⟩

/-- C10: for every input string (the empty string included) the tokenizer
returns at least one line, every line holds at least one token (possibly the
empty token), extracting word 0 from the result always succeeds, and
consequently the dispatcher's no-valid-tokens fallback and its empty-command
fallback are unreachable on tokenizer output. -/
theorem tokenizer_shape_invariant (s : List Char) :
    str_to_command s ≠ [] ∧
    (∀ line ∈ str_to_command s, line ≠ []) ∧
    (get_nth_word (str_to_command s) 0).1.isSome = true ∧
    (∀ (pfx npfx : List Char) (store : List (List Char × List Char)) (msg : Msg),
      on_message pfx npfx store msg ≠ DispatchResult.invalidTokens ∧
      on_message pfx npfx store msg ≠ DispatchResult.emptyCommand) := by
  refine ⟨str_to_command_ne_nil s, str_to_command_lines_ne_nil s,
    get_nth_word_zero_isSome _ (str_to_command_ne_nil s) (str_to_command_lines_ne_nil s),
    ?_⟩
  intro pfx npfx store msg
  unfold on_message
  split
  · exact ⟨fun h => (nomatch h), fun h => (nomatch h)⟩
  · dsimp only
    split
    · split
      · exact ⟨fun h => (nomatch h), fun h => (nomatch h)⟩
      · split
        · exact ⟨fun h => (nomatch h), fun h => (nomatch h)⟩
        · exact ⟨fun h => (nomatch h), fun h => (nomatch h)⟩
    · split
      · exact ⟨fun h => (nomatch h), fun h => (nomatch h)⟩
      · split
        · rename_i hempty
          exact absurd (List.isEmpty_iff.mp hempty)
            (str_to_command_ne_nil (removeprefixPy pfx msg.content))
        · split
          · split
            · exact ⟨fun h => (nomatch h), fun h => (nomatch h)⟩
            · exact ⟨fun h => (nomatch h), fun h => (nomatch h)⟩
          · rename_i heq
            have hsome := get_nth_word_zero_isSome
              (str_to_command (removeprefixPy pfx msg.content))
              (str_to_command_ne_nil _) (str_to_command_lines_ne_nil _)
            rw [heq] at hsome
            simp at hsome

/-- Witness for C10 at the input `"hi"`. -/
theorem tokenizer_shape_invariant_witness :
    str_to_command ['h', 'i'] ≠ [] ∧
    (∀ line ∈ str_to_command ['h', 'i'], line ≠ []) ∧
    (get_nth_word (str_to_command ['h', 'i']) 0).1.isSome = true ∧
    (∀ (pfx npfx : List Char) (store : List (List Char × List Char)) (msg : Msg),
      on_message pfx npfx store msg ≠ DispatchResult.invalidTokens ∧
      on_message pfx npfx store msg ≠ DispatchResult.emptyCommand) :=
  tokenizer_shape_invariant ['h', 'i']
